import Mathlib

/-!
Fractal Mandelbrot explorer (`mandelbrot.cpp`).

A shallow embedding of the numeric core of `mandelbrot.cpp`:

* `get_zoom_in` and the two mouse-button branches of `main` (the zoom navigator),
* the escape loop, the colour rule and the pixel stores of `draw_mandelbrot`.

The C++ type `double` is kept abstract: every function takes a `FloatOps D`
record that interprets the arithmetic operators the source uses.  Statements
that only copy windows around hold for every interpretation; statements made
"over exact arithmetic" are instantiated at `ratOps` (the field `ℚ`).
-/

namespace Mandelbrot

/-! ## Constants -/

/-- Source line 34: `constexpr int WINDOW_WIDTH = 640;`. -/
def WINDOW_WIDTH : Nat := 640

/-- Source line 35: `constexpr int WINDOW_HEIGHT = 640;`. -/
def WINDOW_HEIGHT : Nat := 640

/-- Source line 36: `constexpr int MAX_MANDELBROT_ITERATIONS = 255;`. -/
def MAX_MANDELBROT_ITERATIONS : Nat := 255

/-- Modelled from the spec: the SDL library constant `SDL_ALPHA_OPAQUE`
(declared in SDL's headers, which are not part of the sources); the text calls it
"alpha = fully opaque", i.e. the byte 255. -/
def SDL_ALPHA_OPAQUE : Nat := 255

/-! ## Arithmetic on `double` -/

/-- Interpretation of the `double` operations used by the program.
`ofRat` converts a literal or an integer to `D`; `absGt re im t` is the test
`abs(complex<double>(re, im)) > t`. -/
structure FloatOps (D : Type) where
  ofRat : ℚ → D
  add : D → D → D
  sub : D → D → D
  mul : D → D → D
  div : D → D → D
  absGt : D → D → D → Bool

/-- Exact arithmetic over the rationals.  The modulus test `|re + im·i| > t` is
evaluated without a square root: it holds iff `t < 0` or `re² + im² > t²`. -/
def ratOps : FloatOps ℚ where
  ofRat := fun q => q
  add := fun a b => a + b
  sub := fun a b => a - b
  mul := fun a b => a * b
  div := fun a b => a / b
  absGt := fun re im t => decide (t < 0 ∨ re * re + im * im > t * t)

/-! ## Plane windows and `get_zoom_in` -/

/-- The four doubles `{cx_min, cx_max, cy_min, cy_max}` (an `inner_vec` of the
history vector, and also the four window variables of `main`). -/
structure PlaneWindow (D : Type) where
  cx_min : D
  cx_max : D
  cy_min : D
  cy_max : D
deriving DecidableEq, Repr

/-- The window `main` starts with (lines 222-225): `[-2.0, 1.0] × [-1.5, 1.5]`. -/
def baseWindow {D : Type} (F : FloatOps D) : PlaneWindow D :=
  { cx_min := F.ofRat (-2), cx_max := F.ofRat 1,
    cy_min := F.ofRat (-3/2), cy_max := F.ofRat (3/2) }

/-- Lines 47-59 of `get_zoom_in`: the new values of the four reference
parameters for a click at `(x, y)`. -/
def zoomWindow {D : Type} (F : FloatOps D) (x y : Int) (w : PlaneWindow D) : PlaneWindow D :=
  let cx_delta := F.sub w.cx_max w.cx_min
  let cy_delta := F.sub w.cy_max w.cy_min
  let cx := F.add w.cx_min
    (F.mul (F.div (F.ofRat x) (F.sub (F.ofRat WINDOW_WIDTH) (F.ofRat 1))) cx_delta)
  let cy := F.add w.cy_min
    (F.mul (F.div (F.ofRat y) (F.sub (F.ofRat WINDOW_HEIGHT) (F.ofRat 1))) cy_delta)
  let one_third_cx := F.div cx_delta (F.mul (F.ofRat 3) (F.ofRat 2))
  let one_third_cy := F.div cy_delta (F.mul (F.ofRat 3) (F.ofRat 2))
  { cx_min := F.sub cx one_third_cx, cx_max := F.add cx one_third_cx,
    cy_min := F.sub cy one_third_cy, cy_max := F.add cy one_third_cy }

/-- Function `get_zoom_in` (lines 38-60): pushes the current window at the back
of `vec` and returns the updated vector together with the new window. -/
def get_zoom_in {D : Type} (F : FloatOps D) (vec : List (PlaneWindow D)) (x y : Int)
    (w : PlaneWindow D) : List (PlaneWindow D) × PlaneWindow D :=
  (vec ++ [w], zoomWindow F x y w)

/-! ## The navigator: the mouse-button branches of `main` -/

/-- The navigation variables of `main`: the history vector `vec` (back of the
vector = last element of the list), the four window variables, and `zoom`.
`zoom` is a C++ `int`; it is modelled by `Int`, which agrees with the program as
long as the counter stays below `2^31`.  On reachable states `zoom` is at most
three times the length of `vec` (`reachable_zoom_le`), so signed overflow, which
is undefined in C++, needs a history vector of more than 700 million windows. -/
structure NavState (D : Type) where
  vec : List (PlaneWindow D)
  cur : PlaneWindow D
  zoom : Int
deriving DecidableEq, Repr

/-- State of `main` when the event loop is entered (lines 222-229 and 254). -/
def initState {D : Type} (F : FloatOps D) : NavState D :=
  { vec := [baseWindow F], cur := baseWindow F, zoom := 1 }

/-- A left click at the mouse position `(x, y)`, or a right click. -/
inductive Cmd where
  | zoomIn (x y : Int)
  | zoomOut
deriving DecidableEq, Repr

/-- Branch `case SDL_BUTTON_LEFT` of `main` (lines 271-277). -/
def stepZoomIn {D : Type} (F : FloatOps D) (x y : Int) (s : NavState D) : NavState D :=
  let zoom := if s.zoom = 1 then 3 else s.zoom + 3
  let r := get_zoom_in F s.vec x y s.cur
  { vec := r.1, cur := r.2, zoom := zoom }

/-- Branch `case SDL_BUTTON_RIGHT` of `main` (lines 284-297). -/
def stepZoomOut {D : Type} (s : NavState D) : NavState D :=
  match s.vec.getLast? with
  | none => s
  | some inner_vec =>
    let zoom := if s.zoom = 3 ∨ s.zoom = 1 then 1 else s.zoom - 3
    let vec := if zoom ≠ 1 then s.vec.dropLast else s.vec
    { vec := vec, cur := inner_vec, zoom := zoom }

/-- One mouse-button event. -/
def step {D : Type} (F : FloatOps D) (c : Cmd) (s : NavState D) : NavState D :=
  match c with
  | Cmd.zoomIn x y => stepZoomIn F x y s
  | Cmd.zoomOut => stepZoomOut s

/-- A sequence of mouse-button events, processed in order. -/
def run {D : Type} (F : FloatOps D) (cmds : List Cmd) (s : NavState D) : NavState D :=
  cmds.foldl (fun st c => step F c st) s

/-- States the event loop can be in: reachable from `initState` by clicks. -/
inductive Reachable {D : Type} (F : FloatOps D) : NavState D → Prop where
  | init : Reachable F (initState F)
  | step (c : Cmd) (s : NavState D) : Reachable F s → Reachable F (step F c s)

/-- Nesting check for a command word, `d` zoom-ins being open: every `zoomOut`
closes an open `zoomIn`, and none stays open at the end. -/
def balancedFrom : Nat → List Cmd → Bool
  | d, [] => d == 0
  | d, Cmd.zoomIn _ _ :: w => balancedFrom (d + 1) w
  | 0, Cmd.zoomOut :: _ => false
  | d + 1, Cmd.zoomOut :: w => balancedFrom d w

/-- A properly nested word of `zoomIn`/`zoomOut` commands. -/
def isBalanced (w : List Cmd) : Bool := balancedFrom 0 w

/-- Properly nested words, generated inductively. -/
inductive Balanced : List Cmd → Prop where
  | nil : Balanced []
  | wrap (x y : Int) (w : List Cmd) : Balanced w → Balanced (Cmd.zoomIn x y :: (w ++ [Cmd.zoomOut]))
  | append (u v : List Cmd) : Balanced u → Balanced v → Balanced (u ++ v)

/-- The word `ZoomIn(x₁,y₁); ZoomOut; …; ZoomIn(xₙ,yₙ); ZoomOut`. -/
def inOutWord (clicks : List (Int × Int)) : List Cmd :=
  clicks.flatMap (fun p => [Cmd.zoomIn p.1 p.2, Cmd.zoomOut])

/-! ## `draw_mandelbrot`: escape loop, colour rule, pixel stores -/

/-- One loop body assignment `z = z*z + c` on `complex<double>` values, written
out on real and imaginary parts: `(a+bi)(c+di) = (ac - bd) + (ad + bc)i`. -/
def nextZ {D : Type} (F : FloatOps D) (c z : D × D) : D × D :=
  (F.add (F.sub (F.mul z.1 z.1) (F.mul z.2 z.2)) c.1,
   F.add (F.add (F.mul z.1 z.2) (F.mul z.2 z.1)) c.2)

/-- The loop of lines 79-83, `for (iter = …; iter < cap; ++iter) { z = z*z + c;
if (abs(z) > 2.0) break; }`, entered with `fuel = cap - iter` iterations left.
Returns the values of `iter` and `z` after the loop, and whether the loop was
left through `break`. -/
def escapeLoop {D : Type} (F : FloatOps D) (c : D × D) : Nat → Nat → D × D → Nat × (D × D) × Bool
  | 0, iter, z => (iter, z, false)
  | fuel + 1, iter, z =>
    let z1 := nextZ F c z
    if F.absGt z1.1 z1.2 (F.ofRat 2) then (iter, z1, true)
    else escapeLoop F c fuel (iter + 1) z1

/-- Value of `iter` after the loop of lines 77-83 for the point `c` and the
iteration cap `cap` (`z` starts at `0`, `iter` at `0`). -/
def escapeIter {D : Type} (F : FloatOps D) (cap : Nat) (c : D × D) : Nat :=
  (escapeLoop F c cap 0 (F.ofRat 0, F.ofRat 0)).1

/-- The byte an `unsigned char` element holds after the `int` value `v ≥ 0` is
assigned to it. -/
def toByte (v : Nat) : Nat := v % 256

/-- Right-hand side of line 93, `20 + iter*5, 255`: the comma operator binds
weaker than `=`, so the value assigned is `20 + iter*5`, narrowed to a byte. -/
def blueByte (iter : Nat) : Nat := toByte (20 + iter * 5)

/-- The four bytes (b, g, r, a) of lines 85-97 for an iteration count. -/
def pixelBytes (iter : Nat) : List Nat :=
  if iter = MAX_MANDELBROT_ITERATIONS then
    [toByte 0, toByte 0, toByte 0, toByte SDL_ALPHA_OPAQUE]
  else
    [blueByte iter, toByte 0, toByte 0, toByte SDL_ALPHA_OPAQUE]

/-- Line 84: `const unsigned int offset = (texWidth * 4 * y) + x * 4;`. -/
def pixelOffset (x y : Nat) : Nat := (WINDOW_WIDTH * 4 * y + x * 4) % 2 ^ 32

/-- The assignment `pixels[i] = v` on a `vector<unsigned char>`; `none` when
the index is outside the vector. -/
def storeByte (pixels : List Nat) (i v : Nat) : Option (List Nat) :=
  if i < pixels.length then some (pixels.set i (toByte v)) else none

/-- Lines 74-76: the plane point of pixel `(x, y)`. -/
def planePoint {D : Type} (F : FloatOps D) (w : PlaneWindow D) (x y : Nat) : D × D :=
  let cx_delta := F.sub w.cx_max w.cx_min
  let cy_delta := F.sub w.cy_max w.cy_min
  (F.add w.cx_min (F.mul (F.div (F.ofRat x) (F.sub (F.ofRat WINDOW_WIDTH) (F.ofRat 1))) cx_delta),
   F.add w.cy_min (F.mul (F.div (F.ofRat y) (F.sub (F.ofRat WINDOW_HEIGHT) (F.ofRat 1))) cy_delta))

/-- Iteration count of pixel `(x, y)` (lines 74-83). -/
def pixelIter {D : Type} (F : FloatOps D) (w : PlaneWindow D) (x y : Nat) : Nat :=
  escapeIter F MAX_MANDELBROT_ITERATIONS (planePoint F w x y)

/-- Body of the inner `for` of `draw_mandelbrot` (lines 74-97) for pixel `(x, y)`. -/
def drawPixel {D : Type} (F : FloatOps D) (w : PlaneWindow D) (pixels : List Nat)
    (x y : Nat) : Option (List Nat) :=
  let iter := pixelIter F w x y
  let offset := pixelOffset x y
  if iter = MAX_MANDELBROT_ITERATIONS then do
    let p0 ← storeByte pixels ((offset + 0) % 2 ^ 32) 0
    let p1 ← storeByte p0 ((offset + 1) % 2 ^ 32) 0
    let p2 ← storeByte p1 ((offset + 2) % 2 ^ 32) 0
    storeByte p2 ((offset + 3) % 2 ^ 32) SDL_ALPHA_OPAQUE
  else do
    let p0 ← storeByte pixels ((offset + 0) % 2 ^ 32) (20 + iter * 5)
    let p1 ← storeByte p0 ((offset + 1) % 2 ^ 32) 0
    let p2 ← storeByte p1 ((offset + 2) % 2 ^ 32) 0
    storeByte p2 ((offset + 3) % 2 ^ 32) SDL_ALPHA_OPAQUE

/-- The two nested loops of `draw_mandelbrot` (lines 72-98) over an `xmax × ymax`
grid. -/
def drawLoops {D : Type} (F : FloatOps D) (w : PlaneWindow D) (xmax ymax : Nat)
    (pixels : List Nat) : Option (List Nat) :=
  (List.range xmax).foldlM
    (fun px x => (List.range ymax).foldlM (fun py y => drawPixel F w py x y) px) pixels

/-- Function `draw_mandelbrot` (lines 62-100): the contents of its by-value
parameter `pixels` at the call of `SDL_UpdateTexture`, or `none` if some store
is outside the vector. -/
def draw_mandelbrot {D : Type} (F : FloatOps D) (pixels : List Nat) (w : PlaneWindow D) :
    Option (List Nat) :=
  drawLoops F w WINDOW_WIDTH WINDOW_HEIGHT pixels

/-- The vector `main` allocates at line 247: `texWidth * texHeight * 4` zero bytes. -/
def mainPixels : List Nat := List.replicate (WINDOW_WIDTH * WINDOW_HEIGHT * 4) 0

/-- A buffer of the same size whose previous contents are all the byte 255. -/
def stalePixels : List Nat := List.replicate (WINDOW_WIDTH * WINDOW_HEIGHT * 4) 255

/-! ## Specification-side definitions -/

/-- The orbit `z₀ = 0`, `zₖ₊₁ = zₖ² + c` in exact arithmetic. -/
def orbit (c : ℚ × ℚ) : Nat → ℚ × ℚ
  | 0 => (0, 0)
  | k + 1 => nextZ ratOps c (orbit c k)

/-- The escape test `|z| > 2`, i.e. `re² + im² > 4`. -/
def escaped (z : ℚ × ℚ) : Bool := decide (z.1 * z.1 + z.2 * z.2 > 4)

/-- Escape-time index as the specification words it: the least `n < cap` with
`|z_(n+1)| > 2`, and `cap` when there is none. -/
def escapeTimeSpec (cap : Nat) (c : ℚ × ℚ) : Nat :=
  ((List.range cap).find? (fun n => escaped (orbit c (n + 1)))).getD cap

/-- The clamped colour of the specification: `min(255, 20 + 5*iter)`. -/
def clampedBlue (iter : Nat) : Nat := min 255 (20 + 5 * iter)

/-- Byte index of channel `k` of pixel `(x, y)`: `offset + k`. -/
def pixelIndex (p : Fin 640 × Fin 640 × Fin 4) : Nat :=
  (pixelOffset p.1.val p.2.1.val + p.2.2.val) % 2 ^ 32

/-- Shape of the navigator state on every reachable state: the history vector
is a block of copies of the base window followed by `rest`, the windows of the
zoom-ins still open beyond the first; `zoom` is `1` exactly at the base level. -/
def NavInv {D : Type} (F : FloatOps D) (s : NavState D) : Prop :=
  ∃ (m : Nat) (rest : List (PlaneWindow D)),
    s.vec = List.replicate (m + 1) (baseWindow F) ++ rest ∧
    ((s.zoom = 1 ∧ rest = [] ∧ s.cur = baseWindow F) ∨
      (s.zoom = 3 * ((rest.length : Int) + 1)))

/-- Word rebuilt from a stack of suspended prefixes (each with the click that
opened the next level) and the word `u` read at the innermost level. -/
def unwind : List (List Cmd × Int × Int) → List Cmd → List Cmd
  | [], u => u
  | (p, x, y) :: stk, u => unwind stk (p ++ Cmd.zoomIn x y :: u)

/-- Channel `k` (0 = b, 1 = g, 2 = r, 3 = a) of the bytes written for an
iteration count. -/
def channelByte (iter k : Nat) : Nat := (pixelBytes iter).getD k 0

/-- A sequence of checked stores `pixels[i] = v` of bytes, in order. -/
def applyWrites (pixels : List Nat) (ws : List (Nat × Nat)) : Option (List Nat) :=
  ws.foldlM (fun p iv => if iv.1 < p.length then some (p.set iv.1 iv.2) else none) pixels

/-- The four stores of one pixel, as (index, byte) pairs in program order. -/
def pixelWrites {D : Type} (F : FloatOps D) (w : PlaneWindow D) (x y : Nat) : List (Nat × Nat) :=
  [((pixelOffset x y + 0) % 2 ^ 32, channelByte (pixelIter F w x y) 0),
   ((pixelOffset x y + 1) % 2 ^ 32, channelByte (pixelIter F w x y) 1),
   ((pixelOffset x y + 2) % 2 ^ 32, channelByte (pixelIter F w x y) 2),
   ((pixelOffset x y + 3) % 2 ^ 32, channelByte (pixelIter F w x y) 3)]

/-- All stores of the two nested loops over an `xmax × ymax` grid, in program
order. -/
def frameWrites {D : Type} (F : FloatOps D) (w : PlaneWindow D) (xmax ymax : Nat) :
    List (Nat × Nat) :=
  (List.range xmax).flatMap (fun x => (List.range ymax).flatMap (fun y => pixelWrites F w x y))

/-! ## Navigator: basic facts -/

@[simp] theorem run_nil {D : Type} (F : FloatOps D) (s : NavState D) : run F [] s = s := rfl

@[simp] theorem run_cons {D : Type} (F : FloatOps D) (c : Cmd) (w : List Cmd) (s : NavState D) :
    run F (c :: w) s = run F w (step F c s) := rfl

@[simp] theorem run_append {D : Type} (F : FloatOps D) (u v : List Cmd) (s : NavState D) :
    run F (u ++ v) s = run F v (run F u s) := by
  simp [run, List.foldl_append]

theorem stepZoomOut_concat {D : Type} (v : List (PlaneWindow D)) (w c : PlaneWindow D) (z : Int) :
    stepZoomOut { vec := v ++ [w], cur := c, zoom := z } =
      { vec := if (if z = 3 ∨ z = 1 then (1 : Int) else z - 3) ≠ 1 then v else v ++ [w],
        cur := w,
        zoom := if z = 3 ∨ z = 1 then 1 else z - 3 } := by
  simp [stepZoomOut]

theorem reachable_run {D : Type} (F : FloatOps D) (w : List Cmd) :
    ∀ s : NavState D, Reachable F s → Reachable F (run F w s) := by
  induction w with
  | nil => intro s hs; simpa using hs
  | cons c w ih => intro s hs; simpa using ih _ (Reachable.step c s hs)

theorem navInv_init {D : Type} (F : FloatOps D) : NavInv F (initState F) :=
  ⟨0, [], by simp [initState], Or.inl ⟨rfl, rfl, rfl⟩⟩

theorem navInv_zoomIn {D : Type} (F : FloatOps D) (x y : Int) (s : NavState D)
    (h : NavInv F s) : NavInv F (stepZoomIn F x y s) := by
  obtain ⟨m, rest, hv, hz⟩ := h
  rcases hz with ⟨hz, hr, hc⟩ | hz
  · refine ⟨m + 1, [], ?_, Or.inr ?_⟩
    · subst hr
      simp [stepZoomIn, get_zoom_in, hv, hc, List.replicate_succ' (m + 1)]
    · simp [stepZoomIn, hz]
  · refine ⟨m, rest ++ [s.cur], ?_, Or.inr ?_⟩
    · simp [stepZoomIn, get_zoom_in, hv]
    · have hne : s.zoom ≠ 1 := by omega
      simp only [stepZoomIn, if_neg hne, List.length_append, List.length_singleton]
      push_cast
      omega

theorem navInv_zoomOut {D : Type} (F : FloatOps D) (s : NavState D)
    (h : NavInv F s) : NavInv F (stepZoomOut s) := by
  obtain ⟨m, rest, hv, hz⟩ := h
  obtain ⟨vec, cur, zoom⟩ := s
  simp only at hv hz
  subst hv
  rcases List.eq_nil_or_concat rest with hr | ⟨r, w, hr⟩
  · subst hr
    have hz1 : zoom = 3 ∨ zoom = 1 := by
      rcases hz with ⟨hz, -, -⟩ | hz
      · exact Or.inr hz
      · left; simpa using hz
    refine ⟨m, [], ?_, Or.inl ?_⟩
    · simp [List.replicate_succ' m, stepZoomOut_concat, hz1]
    · simp [List.replicate_succ' m, stepZoomOut_concat, hz1]
  · rw [List.concat_eq_append] at hr
    subst hr
    have hz3 : zoom = 3 * ((r.length : Int) + 2) := by
      rcases hz with ⟨-, hr, -⟩ | hz
      · simp at hr
      · simp only [List.length_append, List.length_singleton] at hz
        push_cast at hz
        omega
    have h1 : ¬ (zoom = 3 ∨ zoom = 1) := by omega
    have h2 : zoom - 3 ≠ 1 := by omega
    refine ⟨m, r, ?_, Or.inr ?_⟩
    · rw [← List.append_assoc, stepZoomOut_concat]
      simp [h1, h2]
    · rw [← List.append_assoc, stepZoomOut_concat]
      simp only [if_neg h1]
      omega

theorem reachable_navInv {D : Type} (F : FloatOps D) (s : NavState D)
    (h : Reachable F s) : NavInv F s := by
  induction h with
  | init => exact navInv_init F
  | step c s _ ih =>
    cases c with
    | zoomIn x y => exact navInv_zoomIn F x y s ih
    | zoomOut => exact navInv_zoomOut F s ih

theorem reachable_zoom {D : Type} (F : FloatOps D) (s : NavState D)
    (h : Reachable F s) : s.zoom = 1 ∨ 3 ≤ s.zoom := by
  obtain ⟨m, rest, -, hz⟩ := reachable_navInv F s h
  rcases hz with ⟨hz, -, -⟩ | hz
  · exact Or.inl hz
  · right; omega

/-- On reachable states `1 ≤ zoom ≤ 3 * vec.size()`: the `int` counter cannot
overflow before the history vector holds more than `2^31 / 3` windows. -/
theorem reachable_zoom_le {D : Type} (F : FloatOps D) (s : NavState D)
    (h : Reachable F s) : 1 ≤ s.zoom ∧ s.zoom ≤ 3 * (s.vec.length : Int) := by
  obtain ⟨m, rest, hv, hz⟩ := reachable_navInv F s h
  have hl : (s.vec.length : Int) = (m : Int) + 1 + (rest.length : Int) := by
    rw [hv, List.length_append, List.length_replicate]
    push_cast
    ring
  rcases hz with ⟨hz, -, -⟩ | hz
  · constructor <;> omega
  · constructor <;> omega

/-! ## Properly nested words -/

theorem balanced_unwind :
    ∀ (w : List Cmd) (stk : List (List Cmd × Int × Int)) (acc : List Cmd),
      Balanced acc → (∀ p ∈ stk, Balanced p.1) →
      balancedFrom stk.length w = true → Balanced (unwind stk (acc ++ w)) := by
  intro w
  induction w with
  | nil =>
    intro stk acc hacc _ hb
    cases stk with
    | nil => simpa [unwind] using hacc
    | cons p stk => simp [balancedFrom] at hb
  | cons c w ih =>
    intro stk acc hacc hstk hb
    cases c with
    | zoomIn x y =>
      have h := ih ((acc, x, y) :: stk) [] Balanced.nil
        (by
          intro p hp
          rcases List.mem_cons.mp hp with rfl | hp
          · exact hacc
          · exact hstk p hp)
        (by simpa [balancedFrom] using hb)
      simpa [unwind] using h
    | zoomOut =>
      cases stk with
      | nil => simp [balancedFrom] at hb
      | cons p stk =>
        obtain ⟨u, x, y⟩ := p
        have hu : Balanced u := hstk (u, x, y) (List.mem_cons_self _ _)
        have h := ih stk (u ++ Cmd.zoomIn x y :: (acc ++ [Cmd.zoomOut]))
          (Balanced.append _ _ hu (Balanced.wrap x y acc hacc))
          (fun q hq => hstk q (List.mem_cons_of_mem _ hq))
          (by simpa [balancedFrom] using hb)
        simpa [unwind] using h

theorem balanced_of_isBalanced (w : List Cmd) (h : isBalanced w = true) : Balanced w := by
  have := balanced_unwind w [] [] Balanced.nil (by simp) (by simpa [isBalanced] using h)
  simpa [unwind] using this

theorem balanced_run {D : Type} (F : FloatOps D) (w : List Cmd) (hw : Balanced w) :
    ∀ s : NavState D, (s.zoom = 1 ∨ 3 ≤ s.zoom) →
      (run F w s).cur = s.cur ∧ (run F w s).zoom = s.zoom ∧
        (s.zoom ≠ 1 → (run F w s).vec = s.vec) := by
  induction hw with
  | nil => intro s _; simp
  | wrap x y w _ ih =>
    intro s hs
    have hz1 : 3 ≤ (stepZoomIn F x y s).zoom := by
      simp only [stepZoomIn]
      split_ifs <;> omega
    obtain ⟨hc, hz, hv⟩ := ih (stepZoomIn F x y s) (Or.inr hz1)
    have hv1 := hv (by omega)
    have hrun : run F w (stepZoomIn F x y s) =
        { vec := s.vec ++ [s.cur], cur := (stepZoomIn F x y s).cur,
          zoom := (stepZoomIn F x y s).zoom } := by
      cases hr : run F w (stepZoomIn F x y s) with
      | mk v c z =>
        rw [hr] at hc hz hv1
        simp only at hc hz hv1
        subst hc hz hv1
        simp [stepZoomIn, get_zoom_in]
    simp only [run_cons, run_append, run_nil, step, hrun, stepZoomOut_concat]
    simp only [stepZoomIn]
    rcases hs with hs | hs
    · simp [hs]
    · have h1 : s.zoom ≠ 1 := by omega
      have h2 : ¬ (s.zoom + 3 = 3 ∨ s.zoom + 3 = 1) := by omega
      have h3 : s.zoom + 3 - 3 = s.zoom := by omega
      simp only [if_neg h1, if_neg h2, h3]
      refine ⟨trivial, trivial, fun _ => ?_⟩
      simp [h1]
  | append u v _ _ ihu ihv =>
    intro s hs
    obtain ⟨hc, hz, hv⟩ := ihu s hs
    obtain ⟨hc2, hz2, hv2⟩ := ihv (run F u s) (by rw [hz]; exact hs)
    refine ⟨by rw [run_append, hc2, hc], by rw [run_append, hz2, hz], ?_⟩
    intro hne
    rw [run_append, hv2 (by rw [hz]; exact hne), hv hne]

theorem zoomOut_at_base {D : Type} (F : FloatOps D) (s : NavState D)
    (hs : NavInv F s) (hz : s.zoom = 1) : stepZoomOut s = s ∧ s.cur = baseWindow F := by
  obtain ⟨m, rest, hv, h⟩ := hs
  obtain ⟨vec, cur, zoom⟩ := s
  simp only at hv h hz
  rcases h with ⟨-, hr, hc⟩ | h
  · subst hv hr hc hz
    simp [List.replicate_succ' m, stepZoomOut_concat]
  · omega

theorem run_zoomOuts_at_base {D : Type} (F : FloatOps D) (s : NavState D)
    (hs : NavInv F s) (hz : s.zoom = 1) (n : Nat) :
    run F (List.replicate n Cmd.zoomOut) s = s := by
  induction n with
  | zero => simp
  | succ n ih =>
    simp only [List.replicate_succ, run_cons, step]
    rw [(zoomOut_at_base F s hs hz).1]
    exact ih

theorem run_inOutWord {D : Type} (F : FloatOps D) (clicks : List (Int × Int)) :
    ∀ k : Nat,
      run F (inOutWord clicks)
          { vec := List.replicate (k + 1) (baseWindow F), cur := baseWindow F, zoom := 1 } =
        { vec := List.replicate (k + 1 + clicks.length) (baseWindow F),
          cur := baseWindow F, zoom := 1 } := by
  induction clicks with
  | nil => intro k; simp [inOutWord]
  | cons p ps ih =>
    intro k
    have hw : inOutWord (p :: ps) = Cmd.zoomIn p.1 p.2 :: Cmd.zoomOut :: inOutWord ps := by
      simp [inOutWord]
    have h1 : stepZoomOut (stepZoomIn F p.1 p.2
        { vec := List.replicate (k + 1) (baseWindow F), cur := baseWindow F, zoom := 1 }) =
        { vec := List.replicate (k + 1 + 1) (baseWindow F), cur := baseWindow F, zoom := 1 } := by
      simp [stepZoomIn, get_zoom_in, stepZoomOut_concat, List.replicate_succ' (k + 1)]
    rw [hw, run_cons, run_cons]
    simp only [step]
    rw [h1, ih (k + 1)]
    simp only [List.length_cons]
    congr 2
    omega

/-! ## Claims about the navigator -/

/-- C1: from every reachable navigator state, running a properly nested word
of ZoomIn/ZoomOut commands (any click coordinates) gives back exactly the
current window and the zoom level of the start state; in particular, from the
initial state, ZoomIn(x,y) followed by ZoomOut gives the base window and zoom
level 1.  Holds for every interpretation of the `double` arithmetic. -/
theorem zoom_out_undoes_zoom_in {D : Type} (F : FloatOps D) (s : NavState D)
    (hs : Reachable F s) (w : List Cmd) (hw : isBalanced w = true) :
    ((run F w s).cur = s.cur ∧ (run F w s).zoom = s.zoom) ∧
    (∀ x y : Int,
      (run F [Cmd.zoomIn x y, Cmd.zoomOut] (initState F)).cur = baseWindow F ∧
      (run F [Cmd.zoomIn x y, Cmd.zoomOut] (initState F)).zoom = 1) := by
  have key : ∀ (t : NavState D), Reachable F t → ∀ u : List Cmd, isBalanced u = true →
      (run F u t).cur = t.cur ∧ (run F u t).zoom = t.zoom := by
    intro t ht u hu
    obtain ⟨hc, hz, -⟩ := balanced_run F u (balanced_of_isBalanced u hu) t (reachable_zoom F t ht)
    exact ⟨hc, hz⟩
  refine ⟨key s hs w hw, ?_⟩
  intro x y
  exact key (initState F) Reachable.init [Cmd.zoomIn x y, Cmd.zoomOut] rfl

/-- Witness for C1: one zoom-in is open (state after a click at (5,7)); the
nested word in(1,2) in(3,4) out out in(0,0) out restores window and level. -/
theorem zoom_out_undoes_zoom_in_witness :
    Reachable ratOps (run ratOps [Cmd.zoomIn 5 7] (initState ratOps)) ∧
    isBalanced [Cmd.zoomIn 1 2, Cmd.zoomIn 3 4, Cmd.zoomOut, Cmd.zoomOut,
      Cmd.zoomIn 0 0, Cmd.zoomOut] = true ∧
    (run ratOps [Cmd.zoomIn 1 2, Cmd.zoomIn 3 4, Cmd.zoomOut, Cmd.zoomOut,
        Cmd.zoomIn 0 0, Cmd.zoomOut] (run ratOps [Cmd.zoomIn 5 7] (initState ratOps))).cur
      = (run ratOps [Cmd.zoomIn 5 7] (initState ratOps)).cur ∧
    (run ratOps [Cmd.zoomIn 1 2, Cmd.zoomIn 3 4, Cmd.zoomOut, Cmd.zoomOut,
        Cmd.zoomIn 0 0, Cmd.zoomOut] (run ratOps [Cmd.zoomIn 5 7] (initState ratOps))).zoom
      = 3 :=
  have hr : Reachable ratOps (run ratOps [Cmd.zoomIn 5 7] (initState ratOps)) :=
    Reachable.step (Cmd.zoomIn 5 7) _ Reachable.init
  have h := (zoom_out_undoes_zoom_in ratOps _ hr
    [Cmd.zoomIn 1 2, Cmd.zoomIn 3 4, Cmd.zoomOut, Cmd.zoomOut, Cmd.zoomIn 0 0, Cmd.zoomOut]
    (by decide)).1
  ⟨hr, by decide, h.1, h.2⟩

/-- C2: in every reachable state with zoom level 1, any number n ≥ 1 of
consecutive ZoomOut commands leaves the current window equal to the base window,
the zoom level equal to 1 and the history vector unchanged. -/
theorem zoom_out_idempotent_at_base {D : Type} (F : FloatOps D) (s : NavState D)
    (hs : Reachable F s) (hz : s.zoom = 1) (n : Nat) (_hn : 1 ≤ n) :
    (run F (List.replicate n Cmd.zoomOut) s).cur = baseWindow F ∧
    (run F (List.replicate n Cmd.zoomOut) s).zoom = 1 ∧
    (run F (List.replicate n Cmd.zoomOut) s).vec = s.vec := by
  have hinv := reachable_navInv F s hs
  rw [run_zoomOuts_at_base F s hinv hz n]
  exact ⟨(zoomOut_at_base F s hinv hz).2, hz, rfl⟩

/-- Witness for C2: after a zoom-in and a zoom-out the level is 1 again; three
further zoom-outs change nothing. -/
theorem zoom_out_idempotent_at_base_witness :
    Reachable ratOps (run ratOps [Cmd.zoomIn 5 7, Cmd.zoomOut] (initState ratOps)) ∧
    (run ratOps [Cmd.zoomIn 5 7, Cmd.zoomOut] (initState ratOps)).zoom = 1 ∧
    (run ratOps (List.replicate 3 Cmd.zoomOut)
      (run ratOps [Cmd.zoomIn 5 7, Cmd.zoomOut] (initState ratOps))).cur = baseWindow ratOps ∧
    (run ratOps (List.replicate 3 Cmd.zoomOut)
      (run ratOps [Cmd.zoomIn 5 7, Cmd.zoomOut] (initState ratOps))).zoom = 1 ∧
    (run ratOps (List.replicate 3 Cmd.zoomOut)
      (run ratOps [Cmd.zoomIn 5 7, Cmd.zoomOut] (initState ratOps))).vec
      = (run ratOps [Cmd.zoomIn 5 7, Cmd.zoomOut] (initState ratOps)).vec :=
  have hr : Reachable ratOps (run ratOps [Cmd.zoomIn 5 7, Cmd.zoomOut] (initState ratOps)) :=
    reachable_run ratOps _ _ Reachable.init
  have h := zoom_out_idempotent_at_base ratOps _ hr (by decide) 3 (by decide)
  ⟨hr, by decide, h.1, h.2.1, h.2.2⟩

/-- C9: the history vector is not synchronised with the zoom level.  After n
repetitions of ZoomIn(x,y); ZoomOut from the initial state (any click
coordinates, given as a list of n clicks) the zoom level is 1 and the current
window is the base window, but the vector holds n + 1 copies of the base window.
Hence reachable states with equal zoom level and equal current window can differ
in vector length, and the vector length is unbounded over such states. -/
theorem stack_not_synchronised {D : Type} (F : FloatOps D) :
    (∀ clicks : List (Int × Int),
      Reachable F (run F (inOutWord clicks) (initState F)) ∧
      (run F (inOutWord clicks) (initState F)).zoom = 1 ∧
      (run F (inOutWord clicks) (initState F)).cur = baseWindow F ∧
      (run F (inOutWord clicks) (initState F)).vec =
        List.replicate (clicks.length + 1) (baseWindow F)) ∧
    (∃ s t : NavState D, Reachable F s ∧ Reachable F t ∧ s.zoom = t.zoom ∧ s.cur = t.cur ∧
      s.vec.length ≠ t.vec.length) ∧
    (∀ N : Nat, ∃ s : NavState D, Reachable F s ∧ s.zoom = 1 ∧ s.cur = baseWindow F ∧
      N < s.vec.length) := by
  have h1 : ∀ clicks : List (Int × Int),
      run F (inOutWord clicks) (initState F) =
        { vec := List.replicate (clicks.length + 1) (baseWindow F),
          cur := baseWindow F, zoom := 1 } := by
    intro clicks
    have h := run_inOutWord F clicks 0
    have e : (initState F) =
        { vec := List.replicate (0 + 1) (baseWindow F), cur := baseWindow F, zoom := 1 } := by
      simp [initState]
    rw [e, h]
    congr 2
    omega
  have hreach : ∀ clicks : List (Int × Int),
      Reachable F (run F (inOutWord clicks) (initState F)) :=
    fun clicks => reachable_run F _ _ Reachable.init
  refine ⟨?_, ?_, ?_⟩
  · intro clicks
    refine ⟨hreach clicks, ?_, ?_, ?_⟩ <;> rw [h1 clicks]
  · refine ⟨run F (inOutWord []) (initState F), run F (inOutWord [(0, 0)]) (initState F),
      hreach _, hreach _, ?_, ?_, ?_⟩
    · rw [h1, h1]
    · rw [h1, h1]
    · rw [h1, h1]; simp
  · intro N
    refine ⟨run F (inOutWord (List.replicate N (0, 0))) (initState F), hreach _, ?_, ?_, ?_⟩
    · rw [h1]
    · rw [h1]
    · rw [h1]; simp

/-! ## The escape loop -/

theorem escapeLoop_break {D : Type} (F : FloatOps D) (c z : D × D) (fuel iter : Nat)
    (h : F.absGt (nextZ F c z).1 (nextZ F c z).2 (F.ofRat 2) = true) :
    escapeLoop F c (fuel + 1) iter z = (iter, nextZ F c z, true) := by
  simp [escapeLoop, h]

theorem escapeLoop_continue {D : Type} (F : FloatOps D) (c z : D × D) (fuel iter : Nat)
    (h : F.absGt (nextZ F c z).1 (nextZ F c z).2 (F.ofRat 2) = false) :
    escapeLoop F c (fuel + 1) iter z = escapeLoop F c fuel (iter + 1) (nextZ F c z) := by
  simp [escapeLoop, h]

theorem ratOps_absGt_two (z : ℚ × ℚ) :
    ratOps.absGt z.1 z.2 (ratOps.ofRat 2) = escaped z := by
  simp only [ratOps, escaped]
  congr 1
  apply propext
  constructor
  · rintro (h | h)
    · norm_num at h
    · linarith
  · intro h
    right
    linarith

/-- The rational test `escaped` is the modulus test `|z| > 2` on complex numbers. -/
theorem escaped_iff_abs (z : ℚ × ℚ) :
    escaped z = true ↔ 2 < Complex.abs ⟨(z.1 : ℝ), (z.2 : ℝ)⟩ := by
  have h0 : (0 : ℝ) ≤ 2 := by norm_num
  rw [Complex.abs_apply, Real.lt_sqrt h0, Complex.normSq_mk]
  simp only [escaped, decide_eq_true_eq, gt_iff_lt]
  constructor
  · intro h
    have h2 : ((4 : ℚ) : ℝ) < ((z.1 * z.1 + z.2 * z.2 : ℚ) : ℝ) := by exact_mod_cast h
    push_cast at h2
    linarith
  · intro h
    have h2 : ((4 : ℚ) : ℝ) < ((z.1 * z.1 + z.2 * z.2 : ℚ) : ℝ) := by
      push_cast
      linarith
    exact_mod_cast h2

theorem escapeLoop_rat_find (c : ℚ × ℚ) :
    ∀ fuel iter : Nat,
      (escapeLoop ratOps c fuel iter (orbit c iter)).1 =
        ((List.range' iter fuel).find? (fun n => escaped (orbit c (n + 1)))).getD
          (iter + fuel) := by
  intro fuel
  induction fuel with
  | zero => intro iter; simp [escapeLoop]
  | succ fuel ih =>
    intro iter
    have hn : nextZ ratOps c (orbit c iter) = orbit c (iter + 1) := rfl
    cases he : escaped (orbit c (iter + 1)) with
    | true =>
      rw [escapeLoop_break ratOps c _ fuel iter (by rw [ratOps_absGt_two, hn, he])]
      simp [List.range'_succ, List.find?_cons, he]
    | false =>
      rw [escapeLoop_continue ratOps c _ fuel iter (by rw [ratOps_absGt_two, hn, he]), hn,
        ih (iter + 1)]
      simp only [List.range'_succ, List.find?_cons, he]
      congr 1
      omega

theorem escapeLoop_rat_spec (c : ℚ × ℚ) :
    ∀ fuel iter : Nat,
      iter ≤ (escapeLoop ratOps c fuel iter (orbit c iter)).1 ∧
      (escapeLoop ratOps c fuel iter (orbit c iter)).1 ≤ iter + fuel ∧
      (∀ n, iter ≤ n → n < (escapeLoop ratOps c fuel iter (orbit c iter)).1 →
        escaped (orbit c (n + 1)) = false) ∧
      ((escapeLoop ratOps c fuel iter (orbit c iter)).1 < iter + fuel →
        escaped (orbit c ((escapeLoop ratOps c fuel iter (orbit c iter)).1 + 1)) = true) := by
  intro fuel
  induction fuel with
  | zero =>
    intro iter
    simp only [escapeLoop]
    exact ⟨le_refl _, le_refl _, fun n h1 h2 => by omega, fun h => by omega⟩
  | succ fuel ih =>
    intro iter
    have hn : nextZ ratOps c (orbit c iter) = orbit c (iter + 1) := rfl
    cases he : escaped (orbit c (iter + 1)) with
    | true =>
      rw [escapeLoop_break ratOps c _ fuel iter (by rw [ratOps_absGt_two, hn, he])]
      exact ⟨le_refl _, by omega, fun n h1 h2 => by omega, fun _ => he⟩
    | false =>
      rw [escapeLoop_continue ratOps c _ fuel iter (by rw [ratOps_absGt_two, hn, he]), hn]
      obtain ⟨h1, h2, h3, h4⟩ := ih (iter + 1)
      refine ⟨by omega, by omega, ?_, fun h => h4 (by omega)⟩
      intro n hn1 hn2
      rcases Nat.eq_or_lt_of_le hn1 with heq | hlt
      · rw [← heq]; exact he
      · exact h3 n hlt hn2

theorem escapeLoop_period_two (fuel : Nat) :
    ∀ iter : Nat,
      (escapeLoop ratOps (-1, 0) fuel iter (0, 0)).1 = iter + fuel ∧
      (escapeLoop ratOps (-1, 0) fuel iter (-1, 0)).1 = iter + fuel := by
  induction fuel with
  | zero => intro iter; simp [escapeLoop]
  | succ fuel ih =>
    intro iter
    have e1 : nextZ ratOps (-1, 0) (0, 0) = ((-1 : ℚ), (0 : ℚ)) := by
      simp [nextZ, ratOps]
    have e2 : nextZ ratOps (-1, 0) (-1, 0) = ((0 : ℚ), (0 : ℚ)) := by
      simp [nextZ, ratOps]
    have a1 : ratOps.absGt (-1 : ℚ) 0 (ratOps.ofRat 2) = false := by
      simp [ratOps]; norm_num
    have a2 : ratOps.absGt (0 : ℚ) 0 (ratOps.ofRat 2) = false := by
      simp [ratOps]
    constructor
    · rw [escapeLoop_continue ratOps _ _ fuel iter (by rw [e1]; exact a1), e1, (ih (iter + 1)).2]
      omega
    · rw [escapeLoop_continue ratOps _ _ fuel iter (by rw [e2]; exact a2), e2, (ih (iter + 1)).1]
      omega

theorem escapeLoop_fixed_zero {D : Type} (F : FloatOps D)
    (hmul : F.mul (F.ofRat 0) (F.ofRat 0) = F.ofRat 0)
    (hsub : F.sub (F.ofRat 0) (F.ofRat 0) = F.ofRat 0)
    (hadd : F.add (F.ofRat 0) (F.ofRat 0) = F.ofRat 0)
    (habs : F.absGt (F.ofRat 0) (F.ofRat 0) (F.ofRat 2) = false) (fuel : Nat) :
    ∀ iter : Nat,
      escapeLoop F (F.ofRat 0, F.ofRat 0) fuel iter (F.ofRat 0, F.ofRat 0) =
        (iter + fuel, (F.ofRat 0, F.ofRat 0), false) := by
  have e : nextZ F (F.ofRat 0, F.ofRat 0) (F.ofRat 0, F.ofRat 0) = (F.ofRat 0, F.ofRat 0) := by
    simp [nextZ, hmul, hsub, hadd]
  induction fuel with
  | zero => intro iter; simp [escapeLoop]
  | succ fuel ih =>
    intro iter
    rw [escapeLoop_continue F _ _ fuel iter (by rw [e]; exact habs), e, ih (iter + 1)]
    congr 1
    omega

/-- C3: in exact arithmetic the escape loop computes the escape-time index:
the value of `iter` after the loop is the least n < cap with |z_(n+1)| > 2
(re² + im² > 4), and cap when there is none; it always lies in [0, cap].  With
cap = 255: c = -1 gives 255, c = 1 + i gives 1, c = 5 + 5i gives 0. -/
theorem escape_loop_computes_escape_time :
    (∀ (c : ℚ × ℚ) (cap : Nat),
      escapeIter ratOps cap c = escapeTimeSpec cap c ∧
      escapeIter ratOps cap c ≤ cap ∧
      (∀ n, n < escapeIter ratOps cap c → escaped (orbit c (n + 1)) = false) ∧
      (escapeIter ratOps cap c < cap →
        escaped (orbit c (escapeIter ratOps cap c + 1)) = true)) ∧
    escapeIter ratOps 255 (-1, 0) = 255 ∧
    escapeIter ratOps 255 (1, 1) = 1 ∧
    escapeIter ratOps 255 (5, 5) = 0 := by
  refine ⟨?_, ?_, ?_, ?_⟩
  · intro c cap
    have hfind := escapeLoop_rat_find c cap 0
    obtain ⟨-, h2, h3, h4⟩ := escapeLoop_rat_spec c cap 0
    have h0 : orbit c 0 = (ratOps.ofRat 0, ratOps.ofRat 0) := rfl
    rw [h0] at hfind h2 h3 h4
    simp only [Nat.zero_add] at hfind h2 h3 h4
    refine ⟨?_, h2, fun n hn => h3 n (Nat.zero_le n) hn, h4⟩
    simp only [escapeIter, escapeTimeSpec, List.range_eq_range']
    exact hfind
  · have h := (escapeLoop_period_two 255 0).1
    simpa [escapeIter, ratOps] using h
  · have e1 : nextZ ratOps (1, 1) (ratOps.ofRat 0, ratOps.ofRat 0) = ((1 : ℚ), (1 : ℚ)) := by
      simp [nextZ, ratOps]
    have e2 : nextZ ratOps (1, 1) (1, 1) = ((1 : ℚ), (3 : ℚ)) := by
      simp [nextZ, ratOps]; norm_num
    have a1 : ratOps.absGt (1 : ℚ) 1 (ratOps.ofRat 2) = false := by
      simp [ratOps]; norm_num
    have a2 : ratOps.absGt (1 : ℚ) 3 (ratOps.ofRat 2) = true := by
      simp [ratOps]; norm_num
    show (escapeLoop ratOps (1, 1) (254 + 1) 0 (ratOps.ofRat 0, ratOps.ofRat 0)).1 = 1
    rw [escapeLoop_continue ratOps _ _ 254 0 (by rw [e1]; exact a1), e1]
    show (escapeLoop ratOps (1, 1) (253 + 1) (0 + 1) (1, 1)).1 = 1
    rw [escapeLoop_break ratOps _ _ 253 (0 + 1) (by rw [e2]; exact a2)]
  · have e1 : nextZ ratOps (5, 5) (ratOps.ofRat 0, ratOps.ofRat 0) = ((5 : ℚ), (5 : ℚ)) := by
      simp [nextZ, ratOps]
    have a1 : ratOps.absGt (5 : ℚ) 5 (ratOps.ofRat 2) = true := by
      simp [ratOps]; norm_num
    show (escapeLoop ratOps (5, 5) (254 + 1) 0 (ratOps.ofRat 0, ratOps.ofRat 0)).1 = 0
    rw [escapeLoop_break ratOps _ _ 254 0 (by rw [e1]; exact a1)]

/-- C4: for c = 0 and every cap the escape loop never takes the break branch
and ends with `iter = cap` and `z = 0`.  Stated for every arithmetic in which
`0*0`, `0-0`, `0+0` are `0` and `abs(0) > 2.0` is false (exact arithmetic and
IEEE doubles alike). -/
theorem origin_never_escapes {D : Type} (F : FloatOps D)
    (hmul : F.mul (F.ofRat 0) (F.ofRat 0) = F.ofRat 0)
    (hsub : F.sub (F.ofRat 0) (F.ofRat 0) = F.ofRat 0)
    (hadd : F.add (F.ofRat 0) (F.ofRat 0) = F.ofRat 0)
    (habs : F.absGt (F.ofRat 0) (F.ofRat 0) (F.ofRat 2) = false) (cap : Nat) :
    escapeIter F cap (F.ofRat 0, F.ofRat 0) = cap ∧
    escapeLoop F (F.ofRat 0, F.ofRat 0) cap 0 (F.ofRat 0, F.ofRat 0) =
      (cap, (F.ofRat 0, F.ofRat 0), false) ∧
    (∀ k : Nat, k < cap →
      escapeLoop F (F.ofRat 0, F.ofRat 0) (cap - k) k (F.ofRat 0, F.ofRat 0) =
        (cap, (F.ofRat 0, F.ofRat 0), false)) := by
  have h := escapeLoop_fixed_zero F hmul hsub hadd habs
  refine ⟨?_, ?_, ?_⟩
  · simp [escapeIter, h cap 0]
  · simp [h cap 0]
  · intro k hk
    rw [h (cap - k) k]
    congr 1
    omega

/-- Witness for C4: exact arithmetic, cap = 255. -/
theorem origin_never_escapes_witness :
    escapeIter ratOps 255 ((0 : ℚ), (0 : ℚ)) = 255 ∧
    escapeLoop ratOps ((0 : ℚ), (0 : ℚ)) 255 0 ((0 : ℚ), (0 : ℚ)) =
      (255, ((0 : ℚ), (0 : ℚ)), false) :=
  have h := origin_never_escapes ratOps (by simp [ratOps]) (by simp [ratOps])
    (by simp [ratOps]) (by simp [ratOps]) 255
  ⟨h.1, h.2.1⟩

/-! ## Zoom-in geometry -/

/-- C6: over exact rational arithmetic, for a window with `cx_min < cx_max`,
`cy_min < cy_max` and a click with `0 ≤ x, y ≤ 639`, the window `get_zoom_in`
produces has one third of the old width and height, its centre is the plane
point the screen-to-plane mapping of the old window assigns to `(x, y)`,
`cx_min + (x/639)(cx_max - cx_min)`, `cy_min + (y/639)(cy_max - cy_min)`, and it
again satisfies `cx_min < cx_max`, `cy_min < cy_max`. -/
theorem zoom_in_geometry (vec : List (PlaneWindow ℚ)) (w : PlaneWindow ℚ) (x y : Int)
    (hw : w.cx_min < w.cx_max) (hh : w.cy_min < w.cy_max)
    (hx0 : 0 ≤ x) (_hx1 : x ≤ 639) (hy0 : 0 ≤ y) (_hy1 : y ≤ 639) :
    (get_zoom_in ratOps vec x y w).2.cx_max - (get_zoom_in ratOps vec x y w).2.cx_min
      = (w.cx_max - w.cx_min) / 3 ∧
    (get_zoom_in ratOps vec x y w).2.cy_max - (get_zoom_in ratOps vec x y w).2.cy_min
      = (w.cy_max - w.cy_min) / 3 ∧
    ((get_zoom_in ratOps vec x y w).2.cx_min + (get_zoom_in ratOps vec x y w).2.cx_max) / 2
      = w.cx_min + ((x : ℚ) / 639) * (w.cx_max - w.cx_min) ∧
    ((get_zoom_in ratOps vec x y w).2.cy_min + (get_zoom_in ratOps vec x y w).2.cy_max) / 2
      = w.cy_min + ((y : ℚ) / 639) * (w.cy_max - w.cy_min) ∧
    (((get_zoom_in ratOps vec x y w).2.cx_min + (get_zoom_in ratOps vec x y w).2.cx_max) / 2,
      ((get_zoom_in ratOps vec x y w).2.cy_min + (get_zoom_in ratOps vec x y w).2.cy_max) / 2)
      = planePoint ratOps w x.toNat y.toNat ∧
    (get_zoom_in ratOps vec x y w).2.cx_min < (get_zoom_in ratOps vec x y w).2.cx_max ∧
    (get_zoom_in ratOps vec x y w).2.cy_min < (get_zoom_in ratOps vec x y w).2.cy_max := by
  have hxn : ((x.toNat : ℕ) : ℚ) = (x : ℚ) := by
    have : ((x.toNat : ℕ) : ℤ) = x := Int.toNat_of_nonneg hx0
    exact_mod_cast congrArg (fun z : ℤ => (z : ℚ)) this
  have hyn : ((y.toNat : ℕ) : ℚ) = (y : ℚ) := by
    have : ((y.toNat : ℕ) : ℤ) = y := Int.toNat_of_nonneg hy0
    exact_mod_cast congrArg (fun z : ℤ => (z : ℚ)) this
  simp only [get_zoom_in, zoomWindow, planePoint, ratOps, WINDOW_WIDTH, WINDOW_HEIGHT, hxn, hyn]
  refine ⟨by ring, by ring, by ring, by ring, ?_, ?_, ?_⟩
  · refine Prod.ext ?_ ?_ <;> simp only <;> push_cast <;> ring
  · have : 0 < (w.cx_max - w.cx_min) / (3 * 2) := by
      apply div_pos <;> linarith
    linarith
  · have : 0 < (w.cy_max - w.cy_min) / (3 * 2) := by
      apply div_pos <;> linarith
    linarith

/-- Witness for C6: the base window and a click at (100, 200). -/
theorem zoom_in_geometry_witness :
    (get_zoom_in ratOps [] 100 200 (baseWindow ratOps)).2.cx_max -
        (get_zoom_in ratOps [] 100 200 (baseWindow ratOps)).2.cx_min
      = ((baseWindow ratOps).cx_max - (baseWindow ratOps).cx_min) / 3 ∧
    (get_zoom_in ratOps [] 100 200 (baseWindow ratOps)).2.cx_min <
      (get_zoom_in ratOps [] 100 200 (baseWindow ratOps)).2.cx_max :=
  have h := zoom_in_geometry [] (baseWindow ratOps) 100 200
    (by norm_num [baseWindow, ratOps]) (by norm_num [baseWindow, ratOps])
    (by decide) (by decide) (by decide) (by decide)
  ⟨h.1, h.2.2.2.2.2.1⟩

/-! ## The pixel buffer -/

theorem drawPixel_eq_applyWrites {D : Type} (F : FloatOps D) (w : PlaneWindow D)
    (pixels : List Nat) (x y : Nat) :
    drawPixel F w pixels x y = applyWrites pixels (pixelWrites F w x y) := by
  unfold drawPixel applyWrites pixelWrites
  by_cases h : pixelIter F w x y = MAX_MANDELBROT_ITERATIONS
  · simp [h, storeByte, channelByte, pixelBytes, toByte, SDL_ALPHA_OPAQUE, List.foldlM,
      MAX_MANDELBROT_ITERATIONS]
  · simp [h, storeByte, channelByte, pixelBytes, toByte, blueByte, SDL_ALPHA_OPAQUE, List.foldlM]

theorem applyWrites_append (pixels : List Nat) (u v : List (Nat × Nat)) :
    applyWrites pixels (u ++ v) = (applyWrites pixels u).bind (fun p => applyWrites p v) := by
  simp [applyWrites, List.foldlM_append]

theorem foldlM_applyWrites {α : Type} (f : α → List (Nat × Nat)) (l : List α) :
    ∀ pixels : List Nat,
      l.foldlM (fun p a => applyWrites p (f a)) pixels = applyWrites pixels (l.flatMap f) := by
  induction l with
  | nil => intro pixels; simp [applyWrites]
  | cons a l ih =>
    intro pixels
    rw [List.foldlM_cons, List.flatMap_cons, applyWrites_append]
    cases h : applyWrites pixels (f a) with
    | none => rfl
    | some p => exact ih p

theorem drawLoops_eq_applyWrites {D : Type} (F : FloatOps D) (w : PlaneWindow D)
    (xmax ymax : Nat) (pixels : List Nat) :
    drawLoops F w xmax ymax pixels = applyWrites pixels (frameWrites F w xmax ymax) := by
  unfold drawLoops frameWrites
  have inner : ∀ (x : Nat) (px : List Nat),
      (List.range ymax).foldlM (fun py y => drawPixel F w py x y) px =
        applyWrites px ((List.range ymax).flatMap (fun y => pixelWrites F w x y)) := by
    intro x px
    rw [← foldlM_applyWrites]
    congr 1
    funext py y
    exact drawPixel_eq_applyWrites F w py x y
  rw [← foldlM_applyWrites]
  congr 1
  funext px x
  exact inner x px

theorem applyWrites_spec (ws : List (Nat × Nat)) :
    ∀ pixels : List Nat, (∀ iv ∈ ws, iv.1 < pixels.length) →
      ∃ out, applyWrites pixels ws = some out ∧ out.length = pixels.length ∧
        ∀ (i v : Nat), i < pixels.length → (∀ iv ∈ ws, iv.1 = i → iv.2 = v) →
          ((∃ iv ∈ ws, iv.1 = i) ∨ pixels[i]? = some v) → out[i]? = some v := by
  induction ws with
  | nil =>
    intro pixels _
    refine ⟨pixels, by simp [applyWrites], rfl, ?_⟩
    intro i v _ _ h
    rcases h with ⟨iv, hiv, -⟩ | h
    · simp at hiv
    · exact h
  | cons jv ws ih =>
    intro pixels hb
    obtain ⟨j, u⟩ := jv
    have hj : j < pixels.length := hb (j, u) (List.mem_cons_self _ _)
    obtain ⟨out, hout, hlen, hcont⟩ := ih (pixels.set j u) (by
      intro iv hiv
      rw [List.length_set]
      exact hb iv (List.mem_cons_of_mem _ hiv))
    refine ⟨out, ?_, by rw [hlen, List.length_set], ?_⟩
    · simp only [applyWrites, List.foldlM_cons, if_pos hj] at hout ⊢
      exact hout
    · intro i v hi hall hex
      apply hcont i v (by rw [List.length_set]; exact hi)
        (fun iv hiv => hall iv (List.mem_cons_of_mem _ hiv))
      by_cases hji : j = i
      · right
        have huv : u = v := hall (j, u) (List.mem_cons_self _ _) hji
        subst hji huv
        simp [List.getElem?_set, hj]
      · rcases hex with ⟨iv, hiv, hivi⟩ | hpx
        · rcases List.mem_cons.mp hiv with rfl | hiv
          · exact absurd hivi hji
          · exact Or.inl ⟨iv, hiv, hivi⟩
        · right
          simpa [List.getElem?_set, hji] using hpx

theorem mem_frameWrites {D : Type} (F : FloatOps D) (w : PlaneWindow D) (xmax ymax : Nat)
    (iv : Nat × Nat) :
    iv ∈ frameWrites F w xmax ymax ↔
      ∃ x, x < xmax ∧ ∃ y, y < ymax ∧ ∃ k, k < 4 ∧
        iv = ((pixelOffset x y + k) % 2 ^ 32, channelByte (pixelIter F w x y) k) := by
  simp only [frameWrites, List.mem_flatMap, List.mem_range, pixelWrites, List.mem_cons,
    List.mem_singleton, List.not_mem_nil, or_false]
  constructor
  · rintro ⟨x, hx, y, hy, h⟩
    refine ⟨x, hx, y, hy, ?_⟩
    rcases h with h | h | h | h
    · exact ⟨0, by omega, h⟩
    · exact ⟨1, by omega, h⟩
    · exact ⟨2, by omega, h⟩
    · exact ⟨3, by omega, h⟩
  · rintro ⟨x, hx, y, hy, k, hk, h⟩
    refine ⟨x, hx, y, hy, ?_⟩
    have : k = 0 ∨ k = 1 ∨ k = 2 ∨ k = 3 := by omega
    rcases this with rfl | rfl | rfl | rfl
    · exact Or.inl h
    · exact Or.inr (Or.inl h)
    · exact Or.inr (Or.inr (Or.inl h))
    · exact Or.inr (Or.inr (Or.inr h))

theorem pixel_index_eq (x y k : Nat) (hx : x < 640) (hy : y < 640) (hk : k < 4) :
    (pixelOffset x y + k) % 2 ^ 32 = 2560 * y + 4 * x + k ∧
    pixelOffset x y = 640 * 4 * y + 4 * x ∧
    2560 * y + 4 * x + k < 1638400 := by
  have h32 : (2 : Nat) ^ 32 = 4294967296 := by norm_num
  simp only [pixelOffset, WINDOW_WIDTH, h32]
  omega

/-- Contents of the buffer after the two loops: every store is in range, and
the byte of channel `k` of pixel `(x, y)` is the colour byte of its iteration
count. -/
theorem draw_mandelbrot_spec {D : Type} (F : FloatOps D) (w : PlaneWindow D)
    (pixels : List Nat) (hlen : pixels.length = 1638400) :
    ∃ out, draw_mandelbrot F pixels w = some out ∧ out.length = 1638400 ∧
      ∀ x y k, x < 640 → y < 640 → k < 4 →
        out[2560 * y + 4 * x + k]? = some (channelByte (pixelIter F w x y) k) := by
  have hb : ∀ iv ∈ frameWrites F w WINDOW_WIDTH WINDOW_HEIGHT, iv.1 < pixels.length := by
    intro iv hiv
    obtain ⟨x, hx, y, hy, k, hk, rfl⟩ := (mem_frameWrites F w _ _ iv).mp hiv
    obtain ⟨h1, -, h3⟩ := pixel_index_eq x y k hx hy hk
    simp only [h1, hlen]
    exact h3
  obtain ⟨out, hout, hl, hcont⟩ := applyWrites_spec _ pixels hb
  refine ⟨out, ?_, by rw [hl, hlen], ?_⟩
  · rw [draw_mandelbrot, drawLoops_eq_applyWrites]
    exact hout
  · intro x y k hx hy hk
    obtain ⟨h1, -, h3⟩ := pixel_index_eq x y k hx hy hk
    apply hcont _ _ (by rw [hlen]; exact h3)
    · intro iv hiv hidx
      obtain ⟨x', hx', y', hy', k', hk', rfl⟩ := (mem_frameWrites F w _ _ iv).mp hiv
      obtain ⟨h1', -, -⟩ := pixel_index_eq x' y' k' hx' hy' hk'
      simp only [h1'] at hidx
      have hx640 : x' < 640 := hx'
      have hy640 : y' < 640 := hy'
      have hxe : x' = x := by omega
      have hye : y' = y := by omega
      have hke : k' = k := by omega
      subst hxe hye hke
      rfl
    · left
      refine ⟨_, (mem_frameWrites F w _ _ _).mpr ⟨x, hx, y, hy, k, hk, rfl⟩, ?_⟩
      exact h1

theorem drawPixel_bytes {D : Type} (F : FloatOps D) (w : PlaneWindow D) (pixels : List Nat)
    (x y : Nat) (hlen : pixels.length = 1638400) (hx : x < 640) (hy : y < 640) :
    ∃ out, drawPixel F w pixels x y = some out ∧ out.length = 1638400 ∧
      ∀ k, k < 4 → out[pixelOffset x y + k]? = some (channelByte (pixelIter F w x y) k) := by
  have hmem : ∀ iv ∈ pixelWrites F w x y, ∃ k, k < 4 ∧
      iv = ((pixelOffset x y + k) % 2 ^ 32, channelByte (pixelIter F w x y) k) := by
    intro iv hiv
    simp only [pixelWrites, List.mem_cons, List.mem_singleton, List.not_mem_nil, or_false] at hiv
    rcases hiv with h | h | h | h
    · exact ⟨0, by omega, h⟩
    · exact ⟨1, by omega, h⟩
    · exact ⟨2, by omega, h⟩
    · exact ⟨3, by omega, h⟩
  have hb : ∀ iv ∈ pixelWrites F w x y, iv.1 < pixels.length := by
    intro iv hiv
    obtain ⟨k, hk, rfl⟩ := hmem iv hiv
    obtain ⟨h1, -, h3⟩ := pixel_index_eq x y k hx hy hk
    simp only [h1, hlen]
    exact h3
  obtain ⟨out, hout, hl, hcont⟩ := applyWrites_spec _ pixels hb
  refine ⟨out, by rw [drawPixel_eq_applyWrites]; exact hout, by rw [hl, hlen], ?_⟩
  intro k hk
  obtain ⟨h1, h2, h3⟩ := pixel_index_eq x y k hx hy hk
  have hidx : pixelOffset x y + k = 2560 * y + 4 * x + k := by omega
  rw [hidx]
  apply hcont _ _ (by rw [hlen]; exact h3)
  · intro iv hiv hi
    obtain ⟨k', hk', rfl⟩ := hmem iv hiv
    obtain ⟨h1', -, -⟩ := pixel_index_eq x y k' hx hy hk'
    simp only [h1'] at hi
    have hke : k' = k := by omega
    subst hke
    rfl
  · left
    have hk4 : k = 0 ∨ k = 1 ∨ k = 2 ∨ k = 3 := by omega
    refine ⟨((pixelOffset x y + k) % 2 ^ 32, channelByte (pixelIter F w x y) k), ?_, h1⟩
    rcases hk4 with rfl | rfl | rfl | rfl <;> simp [pixelWrites]

/-! ## The colour rule -/

/-- C5 (the stored blue byte is not the clamped value): at `iter = 48` the
program stores `(20 + 5*48) mod 256 = 4` where the clamped value is 255; the two
agree exactly for `iter ≤ 47` and differ for every `48 ≤ iter < 255`.  The last
part evaluates the loop body itself on a pixel whose iteration count is 48. -/
theorem blue_byte_not_clamped :
    blueByte 48 = 4 ∧ clampedBlue 48 = 255 ∧ pixelBytes 48 = [4, 0, 0, 255] ∧
    (∀ iter : Nat, iter < 48 → blueByte iter = clampedBlue iter) ∧
    (∀ iter : Nat, 48 ≤ iter → iter < 255 → blueByte iter ≠ clampedBlue iter) ∧
    (∀ (D : Type) (F : FloatOps D) (w : PlaneWindow D) (pixels : List Nat) (x y : Nat),
      pixels.length = 1638400 → x < 640 → y < 640 → pixelIter F w x y = 48 →
      ∃ out, drawPixel F w pixels x y = some out ∧ out[pixelOffset x y]? = some 4) := by
  refine ⟨by decide, by decide, by decide, ?_, ?_, ?_⟩
  rotate_left 2
  · intro D F w pixels x y hlen hx hy hit
    obtain ⟨out, hout, -, hb⟩ := drawPixel_bytes F w pixels x y hlen hx hy
    refine ⟨out, hout, ?_⟩
    have h0 := hb 0 (by omega)
    rw [hit] at h0
    simpa using h0
  · intro iter h
    simp only [blueByte, toByte, clampedBlue]
    omega
  · intro iter h1 h2
    simp only [blueByte, toByte, clampedBlue]
    omega

theorem channelByte_alpha (iter : Nat) : channelByte iter 3 = 255 := by
  unfold channelByte pixelBytes
  split <;> rfl

theorem mainPixels_length : mainPixels.length = 640 * 640 * 4 := by
  unfold mainPixels
  exact List.length_replicate _ _

theorem stalePixels_length : stalePixels.length = 640 * 640 * 4 := by
  unfold stalePixels
  exact List.length_replicate _ _

/-- C7: for every plane window and every input buffer of 640*640*4 bytes,
`draw_mandelbrot` performs all its stores inside the vector (`some out`), the
buffer handed to the display has 640*640*4 = 1638400 bytes, for every pixel
`(x, y)` with `x, y < 640` the offset is `640*4*y + 4*x` and the four indices
`offset + 0..3` are inside the buffer, and the alpha byte at `offset + 3` is 255
whatever the pixel's iteration count. -/
theorem render_buffer_size_and_alpha {D : Type} (F : FloatOps D) (w : PlaneWindow D)
    (pixels : List Nat) (hlen : pixels.length = 640 * 640 * 4) :
    ∃ out, draw_mandelbrot F pixels w = some out ∧ out.length = 1638400 ∧
      ∀ x y, x < 640 → y < 640 →
        pixelOffset x y = 640 * 4 * y + 4 * x ∧
        (∀ k, k < 4 → (pixelOffset x y + k) % 2 ^ 32 < out.length) ∧
        out[(pixelOffset x y + 3) % 2 ^ 32]? = some 255 := by
  obtain ⟨out, hout, hl, hcont⟩ := draw_mandelbrot_spec F w pixels (by rw [hlen])
  refine ⟨out, hout, hl, ?_⟩
  intro x y hx hy
  refine ⟨(pixel_index_eq x y 0 hx hy (by omega)).2.1, ?_, ?_⟩
  · intro k hk
    obtain ⟨h1, -, h3⟩ := pixel_index_eq x y k hx hy hk
    rw [h1, hl]
    exact h3
  · rw [(pixel_index_eq x y 3 hx hy (by omega)).1, hcont x y 3 hx hy (by omega),
      channelByte_alpha]

/-- Witness for C7: the zero-filled vector of `main` and the base window;
pixel (3, 5). -/
theorem render_buffer_size_and_alpha_witness :
    mainPixels.length = 640 * 640 * 4 ∧
    ∃ out, draw_mandelbrot ratOps mainPixels (baseWindow ratOps) = some out ∧
      out.length = 1638400 ∧ out[(pixelOffset 3 5 + 3) % 2 ^ 32]? = some 255 :=
  have h := render_buffer_size_and_alpha ratOps (baseWindow ratOps) mainPixels mainPixels_length
  ⟨mainPixels_length, h.elim fun out ho =>
    ⟨out, ho.1, ho.2.1, (ho.2.2 3 5 (by decide) (by decide)).2.2⟩⟩

theorem pixelIndex_eq (p : Fin 640 × Fin 640 × Fin 4) :
    pixelIndex p = 2560 * p.2.1.val + 4 * p.1.val + p.2.2.val :=
  (pixel_index_eq p.1.val p.2.1.val p.2.2.val p.1.isLt p.2.1.isLt p.2.2.isLt).1

/-- C8: rendering is a full-frame overwrite.  For every plane window and any
two input buffers of 640*640*4 bytes, `draw_mandelbrot` produces the same buffer
byte for byte; that buffer has 640*640*4 bytes and its byte at index
640*4*y + 4*x + channel is the colour byte the call stores for channel `channel`
of pixel `(x, y)`; the map (x, y, channel) ↦ 640*4*y + 4*x + channel is a
bijection from [0,640) × [0,640) × [0,4) onto the indices [0, 1638400) of the
buffer, so every byte is assigned by the call and none of the previous contents
survives. -/
theorem render_full_frame_overwrite {D : Type} (F : FloatOps D) (w : PlaneWindow D)
    (p1 p2 : List Nat) (h1 : p1.length = 640 * 640 * 4) (h2 : p2.length = 640 * 640 * 4) :
    (∃ out, draw_mandelbrot F p1 w = some out ∧ draw_mandelbrot F p2 w = some out ∧
      out.length = 640 * 640 * 4 ∧
      ∀ p : Fin 640 × Fin 640 × Fin 4,
        out[pixelIndex p]? =
          some ((pixelBytes (pixelIter F w p.1.val p.2.1.val)).getD p.2.2.val 0)) ∧
    (∀ p, pixelIndex p = 640 * 4 * p.2.1.val + 4 * p.1.val + p.2.2.val) ∧
    Function.Injective pixelIndex ∧
    (∀ p, pixelIndex p < 640 * 640 * 4) ∧
    (∀ i, i < 640 * 640 * 4 → ∃ p, pixelIndex p = i) := by
  refine ⟨?_, ?_, ?_, ?_, ?_⟩
  · obtain ⟨o1, ho1, hl1, hc1⟩ := draw_mandelbrot_spec F w p1 (by rw [h1])
    obtain ⟨o2, ho2, hl2, hc2⟩ := draw_mandelbrot_spec F w p2 (by rw [h2])
    refine ⟨o1, ho1, ?_, hl1, ?_⟩
    · rw [ho2]
      refine congrArg some (List.ext_getElem? ?_)
      intro n
      by_cases hn : n < 1638400
      · have e : n = 2560 * (n / 2560) + 4 * (n % 2560 / 4) + n % 4 := by omega
        rw [e, hc1 _ _ _ (by omega) (by omega) (by omega),
          hc2 _ _ _ (by omega) (by omega) (by omega)]
      · rw [List.getElem?_eq_none (by omega), List.getElem?_eq_none (by omega)]
    · intro p
      rw [pixelIndex_eq, hc1 _ _ _ p.1.isLt p.2.1.isLt p.2.2.isLt]
      rfl
  · intro p
    rw [pixelIndex_eq]
  · intro p q hpq
    rw [pixelIndex_eq, pixelIndex_eq] at hpq
    obtain ⟨x, y, k⟩ := p
    obtain ⟨x', y', k'⟩ := q
    have hx := x.isLt
    have hx' := x'.isLt
    have hk := k.isLt
    have hk' := k'.isLt
    simp only at hpq
    have e1 : x.val = x'.val := by omega
    have e2 : y.val = y'.val := by omega
    have e3 : k.val = k'.val := by omega
    rw [Fin.ext e1, Fin.ext e2, Fin.ext e3]
  · intro p
    rw [pixelIndex_eq]
    have hx := p.1.isLt
    have hy := p.2.1.isLt
    have hk := p.2.2.isLt
    omega
  · intro i hi
    refine ⟨(⟨i % 2560 / 4, by omega⟩, ⟨i / 2560, by omega⟩, ⟨i % 4, by omega⟩), ?_⟩
    rw [pixelIndex_eq]
    simp only
    omega

/-- Witness for C8: the zero-filled vector of `main` against a vector filled
with the byte 255, base window: one common output of full length, every byte of
which is the colour byte of its pixel. -/
theorem render_full_frame_overwrite_witness :
    mainPixels.length = 640 * 640 * 4 ∧
    stalePixels.length = 640 * 640 * 4 ∧
    ∃ out, draw_mandelbrot ratOps mainPixels (baseWindow ratOps) = some out ∧
      draw_mandelbrot ratOps stalePixels (baseWindow ratOps) = some out ∧
      out.length = 640 * 640 * 4 ∧
      ∀ p : Fin 640 × Fin 640 × Fin 4,
        out[pixelIndex p]? =
          some ((pixelBytes (pixelIter ratOps (baseWindow ratOps) p.1.val p.2.1.val)).getD
            p.2.2.val 0) :=
  ⟨mainPixels_length, stalePixels_length,
    (render_full_frame_overwrite ratOps (baseWindow ratOps) mainPixels
      stalePixels mainPixels_length stalePixels_length).1⟩

end Mandelbrot
